import Mathlib

/-!
# counter01/src/sim_main.cpp : the time-stepping driver

A shallow embedding of `sim_main.cpp`.  The file has one global (`main_time`),
the accessor `sc_time_stamp` and `main`.  `main` drives two collaborators that
are not part of the repository: the Verilator run-time (`VerilatedContext`,
`Verilated::...`) and the generated model `Vsat_counter_tb`.

* The context is a record with the settings and state that `main` touches.
* The generated model and `Verilated::commandArgs` are parameters: every
  theorem quantifies over all of them.
* `main` is a function of the collaborators, the argument vector and an
  iteration budget; it returns the final globals together with the ordered
  list of calls that were made (a ghost log).
-/

namespace SimMain

/-- Number of values of `vluint64_t`. -/
def UINT64_SIZE : Nat := 2 ^ 64

/-- Modelled from the spec: the Simulation Context (`VerilatedContext`, declared in
`verilated.h`, which is not part of the sources).  It holds the debug level, the
register-initialisation policy, the trace-enable flag, the finished flag
(initially false) and the 64-bit time counter (initially 0). -/
structure VerilatedContext where
  m_debug : Int
  m_randReset : Int
  m_traceEverOn : Bool
  m_gotFinish : Bool
  m_time : Nat
  deriving DecidableEq

namespace VerilatedContext

/-- Modelled from the spec: `new VerilatedContext`, a context whose finished flag is
false and whose time counter is 0; no policy has been configured yet. -/
def create : VerilatedContext :=
  { m_debug := 0, m_randReset := 0, m_traceEverOn := false, m_gotFinish := false, m_time := 0 }

/-- Modelled from the spec: `isFinished()`, the value of the finished flag. -/
def gotFinish (c : VerilatedContext) : Bool := c.m_gotFinish

/-- Modelled from the spec: `advanceTime(delta)` adds `delta` to the 64-bit time counter. -/
def timeInc (delta : Nat) (c : VerilatedContext) : VerilatedContext :=
  { c with m_time := (c.m_time + delta) % UINT64_SIZE }

/-- Modelled from the spec: `enableTracing(flag)` on the context object. -/
def traceEverOn (flag : Bool) (c : VerilatedContext) : VerilatedContext :=
  { c with m_traceEverOn := flag }

end VerilatedContext

/-- The static entry points `Verilated::...` of the run-time library.  The three
setters act on the current context; `commandArgs` is owned by the argument-parsing
collaborator and is left arbitrary. -/
structure Verilated where
  commandArgs : List String → VerilatedContext → VerilatedContext

namespace Verilated

/-- Modelled from the spec: `setDebugLevel(level)`. -/
def debug (level : Int) (c : VerilatedContext) : VerilatedContext :=
  { c with m_debug := level }

/-- Modelled from the spec: `setRegisterInitPolicy(mode)`. -/
def randReset (mode : Int) (c : VerilatedContext) : VerilatedContext :=
  { c with m_randReset := mode }

/-- Modelled from the spec: `enableTracing(flag)`. -/
def traceEverOn (flag : Bool) (c : VerilatedContext) : VerilatedContext :=
  { c with m_traceEverOn := flag }

end Verilated

/-- The generated model class `Vsat_counter_tb` (from `Vsat_counter_tb.h`, which is
produced by the tool chain and is not part of the sources), as an interface over
an arbitrary model state `M`.

* `create` is `new Vsat_counter_tb`: it reads the context as it is at that moment.
* `eval` receives the value `sc_time_stamp` would return, the model and the
  context; it either raises a fault or returns the new model and context (it may
  set the finished flag).
* `final` runs the final blocks. -/
structure Vsat_counter_tb (M : Type) where
  create : VerilatedContext → M × VerilatedContext
  eval : Nat → M → VerilatedContext → Except String (M × VerilatedContext)
  final : Nat → M → VerilatedContext → M × VerilatedContext

/-- One call made by `main` on a collaborator, with what the callee can observe. -/
inductive Call where
  | newContext
  | newModel
  | debug (level : Int)
  | randReset (mode : Int)
  | traceEverOn (flag : Bool)
  | commandArgs (argv : List String)
  | ctxTraceEverOn (flag : Bool)
  | gotFinish (result : Bool)
  | eval (stamp : Nat) (ctxTime : Nat)
  | timeInc (delta : Nat)
  | final (stamp : Nat) (ctxTime : Nat) (finished : Bool)
  | delete
  deriving DecidableEq

/-- The globals and locals of `main` plus the ghost log of calls made so far. -/
structure DriverState (M : Type) where
  main_time : Nat
  m_contextp : VerilatedContext
  top_tb : M
  log : List Call

/-- The accessor `double sc_time_stamp() { return main_time; }`: the integer that is
widened to `double` (the widening itself is not modelled). -/
def sc_time_stamp (main_time : Nat) : Nat := main_time

/-- Lines 15-22 of `main`: the declarations and the configuration calls, in source
order, starting from `main_time = 0`. -/
def startup {M : Type} (lib : Verilated) (dev : Vsat_counter_tb M) (argv : List String) :
    DriverState M :=
  let c0 := VerilatedContext.create
  let made := dev.create c0
  let top := made.1
  let c1 := made.2
  let c2 := Verilated.debug 0 c1
  let c3 := Verilated.randReset 2 c2
  let c4 := Verilated.traceEverOn true c3
  let c5 := lib.commandArgs argv c4
  let c6 := VerilatedContext.traceEverOn true c5
  { main_time := 0
    m_contextp := c6
    top_tb := top
    log := [Call.newContext, Call.newModel, Call.debug 0, Call.randReset 2,
            Call.traceEverOn true, Call.commandArgs argv, Call.ctxTraceEverOn true] }

/-- The body of the simulation loop (lines 26-28), preceded by the log entry of the
loop-head test that let it run: `++main_time; top_tb->eval(); m_contextp->timeInc(1);`.
A fault raised by `eval` is not caught; the state at the fault is returned with it. -/
def loopBody {M : Type} (dev : Vsat_counter_tb M) (s : DriverState M) :
    Except (String × DriverState M) (DriverState M) :=
  let t := (s.main_time + 1) % UINT64_SIZE
  let log1 := s.log ++ [Call.gotFinish false, Call.eval (sc_time_stamp t) s.m_contextp.m_time]
  match dev.eval (sc_time_stamp t) s.top_tb s.m_contextp with
  | Except.error e => Except.error (e, { s with main_time := t, log := log1 })
  | Except.ok (top, c) =>
      Except.ok { main_time := t
                  m_contextp := VerilatedContext.timeInc 1 c
                  top_tb := top
                  log := log1 ++ [Call.timeInc 1] }

/-- How an execution of the loop, or of `main`, ended. -/
inductive Outcome where
  | returned (code : Int)
  | fault (msg : String)
  | running
  deriving DecidableEq

/-- The loop `while (!m_contextp->gotFinish()) { ... }` with a budget of `fuel`
executions of the body.  `Outcome.running` means the budget ran out with the flag still false. -/
def whileLoop {M : Type} (dev : Vsat_counter_tb M) : Nat → DriverState M → Outcome × DriverState M
  | 0, s =>
      if s.m_contextp.gotFinish then
        (Outcome.returned 0, { s with log := s.log ++ [Call.gotFinish true] })
      else (Outcome.running, s)
  | fuel + 1, s =>
      if s.m_contextp.gotFinish then
        (Outcome.returned 0, { s with log := s.log ++ [Call.gotFinish true] })
      else
        match loopBody dev s with
        | Except.error (e, s') => (Outcome.fault e, s')
        | Except.ok s' => whileLoop dev fuel s'

/-- What is left when `main` stops: the outcome, the globals and the log. -/
structure Run where
  outcome : Outcome
  main_time : Nat
  m_contextp : VerilatedContext
  log : List Call
  deriving DecidableEq

/-- The function `main`: start-up, the loop, then `top_tb->final(); delete top_tb;
return 0;`.  If the loop does not end normally nothing after it is executed. -/
def main {M : Type} (lib : Verilated) (dev : Vsat_counter_tb M) (argv : List String)
    (fuel : Nat) : Run :=
  match whileLoop dev fuel (startup lib dev argv) with
  | (Outcome.returned _, s) =>
      { outcome := Outcome.returned 0
        main_time := s.main_time
        m_contextp := (dev.final (sc_time_stamp s.main_time) s.top_tb s.m_contextp).2
        log := s.log ++ [Call.final (sc_time_stamp s.main_time) s.m_contextp.m_time
                           s.m_contextp.gotFinish,
                         Call.delete] }
  | (o, s) =>
      { outcome := o, main_time := s.main_time, m_contextp := s.m_contextp, log := s.log }

/-- The state at the loop head after `k` completed iterations, when the run gets
that far (`none` if the loop was left, or `eval` faulted, before that). -/
def loopHead {M : Type} (dev : Vsat_counter_tb M) : Nat → DriverState M → Option (DriverState M)
  | 0, s => some s
  | k + 1, s =>
      if s.m_contextp.gotFinish then none
      else
        match loopBody dev s with
        | Except.error _ => none
        | Except.ok s' => loopHead dev k s'

/-- The finished flag as tested at the loop head after `k` completed iterations. -/
def flagAt {M : Type} (dev : Vsat_counter_tb M) (k : Nat) (s : DriverState M) : Option Bool :=
  (loopHead dev k s).map (fun s' => s'.m_contextp.gotFinish)

/-! ### Projections of the log -/

/-- What each `eval` call saw: the time stamp and the context's counter. -/
def evalCalls : List Call → List (Nat × Nat)
  | [] => []
  | Call.eval t c :: l => (t, c) :: evalCalls l
  | _ :: l => evalCalls l

/-- The arguments of the `timeInc` calls. -/
def timeIncCalls : List Call → List Nat
  | [] => []
  | Call.timeInc d :: l => d :: timeIncCalls l
  | _ :: l => timeIncCalls l

/-- The results of the loop-head tests. -/
def checks : List Call → List Bool
  | [] => []
  | Call.gotFinish b :: l => b :: checks l
  | _ :: l => checks l

/-- What each `final` call saw: the time stamp, the context's counter and the
finished flag. -/
def finalCalls : List Call → List (Nat × Nat × Bool)
  | [] => []
  | Call.final t c b :: l => (t, c, b) :: finalCalls l
  | _ :: l => finalCalls l

/-- For each `eval` call, the number of `timeInc` calls made before it (`n` of them
before the list starts). -/
def incsBeforeEval : Nat → List Call → List Nat
  | _, [] => []
  | n, Call.timeInc _ :: l => incsBeforeEval (n + 1) l
  | n, Call.eval _ _ :: l => n :: incsBeforeEval n l
  | n, _ :: l => incsBeforeEval n l

/-- The fault raised by the `k`-th `eval` call of the run that starts in `s`, if the
run reaches that call and it faults. -/
def faultAt {M : Type} (dev : Vsat_counter_tb M) (k : Nat) (s : DriverState M) : Option String :=
  match k with
  | 0 => none
  | j + 1 =>
      match loopHead dev j s with
      | none => none
      | some sj =>
          if sj.m_contextp.gotFinish then none
          else
            match loopBody dev sj with
            | Except.error (e, _) => some e
            | Except.ok _ => none

/-! ### Concrete models used to exercise the theorems -/

/-- A model that counts its `eval` calls and sets the finished flag on the `n`-th. -/
def finishOn (n : Nat) : Vsat_counter_tb Nat where
  create := fun c => (0, c)
  eval := fun _ m c =>
    Except.ok (m + 1, if m + 1 = n then { c with m_gotFinish := true } else c)
  final := fun _ m c => (m, c)

/-- A model that never sets the finished flag. -/
def idle : Vsat_counter_tb Unit where
  create := fun c => ((), c)
  eval := fun _ m c => Except.ok (m, c)
  final := fun _ m c => (m, c)

/-- A model whose `k`-th `eval` call raises a fault. -/
def faultOn (k : Nat) : Vsat_counter_tb Nat where
  create := fun c => (0, c)
  eval := fun _ m c => if m + 1 = k then Except.error "fault" else Except.ok (m + 1, c)
  final := fun _ m c => (m, c)

/-- A model whose construction sets the finished flag. -/
def finishedAtCreate : Vsat_counter_tb Unit where
  create := fun c => ((), { c with m_gotFinish := true })
  eval := fun _ m c => Except.ok (m, c)
  final := fun _ m c => (m, c)

/-- A model that keeps the register-initialisation policy and the trace flag it
found in the context when it was constructed. -/
def snapshot : Vsat_counter_tb (Int × Bool) where
  create := fun c => ((c.m_randReset, c.m_traceEverOn), c)
  eval := fun _ m c => Except.ok (m, c)
  final := fun _ m c => (m, c)

/-- An argument parser that only passes the context through. -/
def plainArgs : Verilated where
  commandArgs := fun _ c => c

/-! ### The log projections on concatenations -/

theorem evalCalls_append (a b : List Call) : evalCalls (a ++ b) = evalCalls a ++ evalCalls b := by
  induction a with
  | nil => rfl
  | cons x l ih => cases x <;> simp [evalCalls, ih]

theorem timeIncCalls_append (a b : List Call) :
    timeIncCalls (a ++ b) = timeIncCalls a ++ timeIncCalls b := by
  induction a with
  | nil => rfl
  | cons x l ih => cases x <;> simp [timeIncCalls, ih]

theorem checks_append (a b : List Call) : checks (a ++ b) = checks a ++ checks b := by
  induction a with
  | nil => rfl
  | cons x l ih => cases x <;> simp [checks, ih]

theorem finalCalls_append (a b : List Call) :
    finalCalls (a ++ b) = finalCalls a ++ finalCalls b := by
  induction a with
  | nil => rfl
  | cons x l ih => cases x <;> simp [finalCalls, ih]

theorem incsBeforeEval_append (n : Nat) (a b : List Call) :
    incsBeforeEval n (a ++ b)
      = incsBeforeEval n a ++ incsBeforeEval (n + (timeIncCalls a).length) b := by
  induction a generalizing n with
  | nil => simp [incsBeforeEval, timeIncCalls]
  | cons x l ih =>
      cases x <;> simp [incsBeforeEval, timeIncCalls, ih]
      rw [Nat.add_assoc, Nat.add_comm 1]

/-! ### One execution of the loop body -/

theorem loopBody_ok {M : Type} (dev : Vsat_counter_tb M) (s s' : DriverState M)
    (h : loopBody dev s = Except.ok s') :
    ∃ top c, dev.eval ((s.main_time + 1) % UINT64_SIZE) s.top_tb s.m_contextp = Except.ok (top, c)
      ∧ s' = { main_time := (s.main_time + 1) % UINT64_SIZE
               m_contextp := VerilatedContext.timeInc 1 c
               top_tb := top
               log := s.log ++ [Call.gotFinish false,
                                Call.eval ((s.main_time + 1) % UINT64_SIZE) s.m_contextp.m_time,
                                Call.timeInc 1] } := by
  unfold loopBody at h
  simp only [sc_time_stamp] at h
  cases hE : dev.eval ((s.main_time + 1) % UINT64_SIZE) s.top_tb s.m_contextp with
  | error e => rw [hE] at h; cases h
  | ok r =>
      obtain ⟨top, c⟩ := r
      rw [hE] at h
      refine ⟨top, c, rfl, ?_⟩
      simp only [Except.ok.injEq] at h
      rw [← h]
      simp

theorem loopBody_error {M : Type} (dev : Vsat_counter_tb M) (s sf : DriverState M) (e : String)
    (h : loopBody dev s = Except.error (e, sf)) :
    dev.eval ((s.main_time + 1) % UINT64_SIZE) s.top_tb s.m_contextp = Except.error e
      ∧ sf = { s with main_time := (s.main_time + 1) % UINT64_SIZE
                      log := s.log ++ [Call.gotFinish false,
                                Call.eval ((s.main_time + 1) % UINT64_SIZE) s.m_contextp.m_time] } := by
  unfold loopBody at h
  simp only [sc_time_stamp] at h
  cases hE : dev.eval ((s.main_time + 1) % UINT64_SIZE) s.top_tb s.m_contextp with
  | error e' =>
      rw [hE] at h
      simp only [Except.error.injEq, Prod.mk.injEq] at h
      exact ⟨by rw [h.1], h.2.symm⟩
  | ok r =>
      obtain ⟨top, c⟩ := r
      rw [hE] at h; cases h

/-! ### The run up to a loop head -/

theorem loopHead_succ {M : Type} (dev : Vsat_counter_tb M) (k : Nat) (s sk : DriverState M)
    (h : loopHead dev (k + 1) s = some sk) :
    s.m_contextp.gotFinish = false ∧ ∃ s1, loopBody dev s = Except.ok s1 ∧ loopHead dev k s1 = some sk := by
  unfold loopHead at h
  cases hf : s.m_contextp.gotFinish with
  | true => simp [hf] at h
  | false =>
      simp only [hf] at h
      cases hb : loopBody dev s with
      | error e => rw [hb] at h; simp at h
      | ok s1 => rw [hb] at h; exact ⟨rfl, s1, rfl, by simpa using h⟩

theorem step_mod (a i : Nat) :
    ((a + 1) % UINT64_SIZE + i + 1) % UINT64_SIZE = (a + (i + 1) + 1) % UINT64_SIZE := by
  unfold UINT64_SIZE
  omega

theorem step_mod_add (a k : Nat) :
    ((a + 1) % UINT64_SIZE + k) % UINT64_SIZE = (a + (k + 1)) % UINT64_SIZE := by
  unfold UINT64_SIZE
  omega

theorem mod_lt_size (a : Nat) : a % UINT64_SIZE < UINT64_SIZE :=
  Nat.mod_lt _ (by unfold UINT64_SIZE; omega)

theorem loopHead_inv {M : Type} (dev : Vsat_counter_tb M) (k : Nat) (s sk : DriverState M)
    (h : loopHead dev k s = some sk) :
    checks sk.log = checks s.log ++ List.replicate k false
    ∧ timeIncCalls sk.log = timeIncCalls s.log ++ List.replicate k 1
    ∧ finalCalls sk.log = finalCalls s.log
    ∧ (evalCalls sk.log).map Prod.fst
        = (evalCalls s.log).map Prod.fst
          ++ (List.range k).map (fun i => (s.main_time + i + 1) % UINT64_SIZE)
    ∧ (∀ n, incsBeforeEval n sk.log
        = incsBeforeEval n s.log
          ++ (List.range k).map (fun i => n + (timeIncCalls s.log).length + i))
    ∧ (s.main_time < UINT64_SIZE → sk.main_time = (s.main_time + k) % UINT64_SIZE) := by
  induction k generalizing s with
  | zero =>
      simp only [loopHead, Option.some.injEq] at h
      subst h
      simp
      intro hlt
      exact (Nat.mod_eq_of_lt hlt).symm
  | succ k ih =>
      obtain ⟨_, s1, hb, hk⟩ := loopHead_succ dev k s sk h
      obtain ⟨top, c, _, hs1⟩ := loopBody_ok dev s s1 hb
      obtain ⟨i1, i2, i3, i4, i5, i6⟩ := ih s1 hk
      subst hs1
      simp only at i1 i2 i3 i4 i5 i6
      refine ⟨?_, ?_, ?_, ?_, ?_, ?_⟩
      · rw [i1, checks_append]
        simp [checks, List.replicate_succ]
      · rw [i2, timeIncCalls_append]
        simp [timeIncCalls, List.replicate_succ]
      · rw [i3, finalCalls_append]
        simp [finalCalls]
      · rw [i4, evalCalls_append, List.range_succ_eq_map]
        simp [evalCalls, step_mod, Function.comp_def]
      · intro n
        rw [i5 n, incsBeforeEval_append, timeIncCalls_append, List.range_succ_eq_map]
        simp [incsBeforeEval, timeIncCalls, Function.comp_def]
        intro a _
        omega
      · intro _
        rw [i6 (mod_lt_size _), step_mod_add]

theorem loopHead_step {M : Type} (dev : Vsat_counter_tb M) (k : Nat) (s s1 : DriverState M)
    (hf : s.m_contextp.gotFinish = false) (hb : loopBody dev s = Except.ok s1) :
    loopHead dev (k + 1) s = loopHead dev k s1 := by
  simp [loopHead, hf, hb]

/-! ### The loop, given how far the run gets -/

theorem whileLoop_finish {M : Type} (dev : Vsat_counter_tb M) (n : Nat) (s sn : DriverState M)
    (fuel : Nat) (h : loopHead dev n s = some sn) (hf : sn.m_contextp.gotFinish = true)
    (hn : n ≤ fuel) :
    whileLoop dev fuel s
      = (Outcome.returned 0, { sn with log := sn.log ++ [Call.gotFinish true] }) := by
  induction n generalizing s fuel with
  | zero =>
      simp only [loopHead, Option.some.injEq] at h
      subst h
      cases fuel <;> simp [whileLoop, hf]
  | succ n ih =>
      obtain ⟨h0, s1, hb, hk⟩ := loopHead_succ dev n s sn h
      cases fuel with
      | zero => omega
      | succ f =>
          simp only [whileLoop, h0, hb]
          exact ih s1 f hk (by omega)

theorem whileLoop_running {M : Type} (dev : Vsat_counter_tb M) (k : Nat) (s sk : DriverState M)
    (h : loopHead dev k s = some sk) (hf : sk.m_contextp.gotFinish = false) :
    whileLoop dev k s = (Outcome.running, sk) := by
  induction k generalizing s with
  | zero =>
      simp only [loopHead, Option.some.injEq] at h
      subst h
      simp [whileLoop, hf]
  | succ k ih =>
      obtain ⟨h0, s1, hb, hk⟩ := loopHead_succ dev k s sk h
      simp only [whileLoop, h0, hb]
      exact ih s1 hk

theorem whileLoop_fault {M : Type} (dev : Vsat_counter_tb M) (k : Nat) (s sk sf : DriverState M)
    (e : String) (fuel : Nat) (h : loopHead dev k s = some sk)
    (hf : sk.m_contextp.gotFinish = false) (hb : loopBody dev sk = Except.error (e, sf))
    (hk : k < fuel) :
    whileLoop dev fuel s = (Outcome.fault e, sf) := by
  induction k generalizing s fuel with
  | zero =>
      simp only [loopHead, Option.some.injEq] at h
      subst h
      cases fuel with
      | zero => omega
      | succ f => simp [whileLoop, hf, hb]
  | succ k ih =>
      obtain ⟨h0, s1, hb1, hk1⟩ := loopHead_succ dev k s sk h
      cases fuel with
      | zero => omega
      | succ f =>
          simp only [whileLoop, h0, hb1]
          exact ih s1 f hk1 (by omega)

/-- Every execution of the loop is one of three: it reached a loop head with the
flag set, it used up its budget, or an `eval` call faulted. -/
theorem whileLoop_cases {M : Type} (dev : Vsat_counter_tb M) (fuel : Nat) (s : DriverState M) :
    ∃ k sk, k ≤ fuel ∧ loopHead dev k s = some sk ∧
      ((sk.m_contextp.gotFinish = true ∧
          whileLoop dev fuel s
            = (Outcome.returned 0, { sk with log := sk.log ++ [Call.gotFinish true] }))
       ∨ (k = fuel ∧ sk.m_contextp.gotFinish = false ∧
          whileLoop dev fuel s = (Outcome.running, sk))
       ∨ (k < fuel ∧ sk.m_contextp.gotFinish = false ∧
          ∃ e sf, loopBody dev sk = Except.error (e, sf) ∧
            whileLoop dev fuel s = (Outcome.fault e, sf))) := by
  induction fuel generalizing s with
  | zero =>
      refine ⟨0, s, Nat.le_refl _, rfl, ?_⟩
      cases hf : s.m_contextp.gotFinish with
      | true => exact Or.inl ⟨rfl, by simp [whileLoop, hf]⟩
      | false => exact Or.inr (Or.inl ⟨rfl, rfl, by simp [whileLoop, hf]⟩)
  | succ f ih =>
      cases hf : s.m_contextp.gotFinish with
      | true => exact ⟨0, s, Nat.zero_le _, rfl, Or.inl ⟨hf, by simp [whileLoop, hf]⟩⟩
      | false =>
          cases hb : loopBody dev s with
          | error r =>
              obtain ⟨e, sf⟩ := r
              exact ⟨0, s, Nat.zero_le _, rfl,
                Or.inr (Or.inr ⟨Nat.succ_pos _, hf, e, sf, hb, by simp [whileLoop, hf, hb]⟩)⟩
          | ok s1 =>
              obtain ⟨k, sk, hk, hh, hc⟩ := ih s1
              have hw : whileLoop dev (f + 1) s = whileLoop dev f s1 := by
                simp [whileLoop, hf, hb]
              refine ⟨k + 1, sk, by omega, ?_, ?_⟩
              · rw [loopHead_step dev k s s1 hf hb]; exact hh
              · rw [hw]
                rcases hc with h1 | h2 | h3
                · exact Or.inl h1
                · exact Or.inr (Or.inl ⟨by omega, h2.2⟩)
                · exact Or.inr (Or.inr ⟨by omega, h3.2⟩)

/-! ### The whole of `main` -/

theorem startup_main_time {M : Type} (lib : Verilated) (dev : Vsat_counter_tb M)
    (argv : List String) : (startup lib dev argv).main_time = 0 := rfl

theorem startup_log {M : Type} (lib : Verilated) (dev : Vsat_counter_tb M)
    (argv : List String) :
    (startup lib dev argv).log
      = [Call.newContext, Call.newModel, Call.debug 0, Call.randReset 2,
         Call.traceEverOn true, Call.commandArgs argv, Call.ctxTraceEverOn true] := rfl

/-- Every run of `main`, described by the loop head it got to. -/
theorem main_cases {M : Type} (lib : Verilated) (dev : Vsat_counter_tb M)
    (argv : List String) (fuel : Nat) :
    ∃ k sk, k ≤ fuel ∧ loopHead dev k (startup lib dev argv) = some sk ∧
      ((sk.m_contextp.gotFinish = true ∧
          main lib dev argv fuel
            = { outcome := Outcome.returned 0
                main_time := sk.main_time
                m_contextp := (dev.final sk.main_time sk.top_tb sk.m_contextp).2
                log := sk.log ++ [Call.gotFinish true,
                                  Call.final sk.main_time sk.m_contextp.m_time true,
                                  Call.delete] })
       ∨ (k = fuel ∧ sk.m_contextp.gotFinish = false ∧
          main lib dev argv fuel
            = { outcome := Outcome.running
                main_time := sk.main_time
                m_contextp := sk.m_contextp
                log := sk.log })
       ∨ (k < fuel ∧ sk.m_contextp.gotFinish = false ∧
          ∃ e, main lib dev argv fuel
            = { outcome := Outcome.fault e
                main_time := (sk.main_time + 1) % UINT64_SIZE
                m_contextp := sk.m_contextp
                log := sk.log ++ [Call.gotFinish false,
                                  Call.eval ((sk.main_time + 1) % UINT64_SIZE)
                                    sk.m_contextp.m_time] })) := by
  obtain ⟨k, sk, hk, hh, hc⟩ := whileLoop_cases dev fuel (startup lib dev argv)
  refine ⟨k, sk, hk, hh, ?_⟩
  rcases hc with ⟨hf, hw⟩ | ⟨hkf, hf, hw⟩ | ⟨hkf, hf, e, sf, hb, hw⟩
  · refine Or.inl ⟨hf, ?_⟩
    simp [main, hw, sc_time_stamp, hf]
  · refine Or.inr (Or.inl ⟨hkf, hf, ?_⟩)
    simp [main, hw]
  · refine Or.inr (Or.inr ⟨hkf, hf, e, ?_⟩)
    obtain ⟨_, hsf⟩ := loopBody_error dev sk sf e hb
    subst hsf
    simp [main, hw]

/-- The time stamps seen by the `eval` calls of a run are `1, 2, ..., j` (reduced
modulo 2^64) for some `j`. -/
theorem main_stamps {M : Type} (lib : Verilated) (dev : Vsat_counter_tb M)
    (argv : List String) (fuel : Nat) :
    ∃ j, (evalCalls (main lib dev argv fuel).log).map Prod.fst
      = (List.range j).map (fun i => (i + 1) % UINT64_SIZE) := by
  obtain ⟨k, sk, _, hh, hc⟩ := main_cases lib dev argv fuel
  obtain ⟨_, _, _, i4, _, i6⟩ := loopHead_inv dev k _ sk hh
  rw [startup_log, startup_main_time] at i4
  rw [startup_main_time] at i6
  have hmt : sk.main_time = k % UINT64_SIZE := by
    have := i6 (by unfold UINT64_SIZE; omega)
    simpa using this
  simp only [evalCalls, List.map_nil, List.nil_append, Nat.zero_add] at i4
  rcases hc with ⟨_, hm⟩ | ⟨_, _, hm⟩ | ⟨_, _, e, hm⟩
  · refine ⟨k, ?_⟩
    rw [hm]
    simp only [evalCalls_append, List.map_append, i4]
    simp [evalCalls]
  · refine ⟨k, ?_⟩
    rw [hm]
    exact i4
  · refine ⟨k + 1, ?_⟩
    rw [hm]
    simp only [evalCalls_append, List.map_append, i4, List.range_succ]
    simp [evalCalls, hmt]

/-- C1: in every run of `main` in which `eval` is called at least once, the first
`eval` call sees the time stamp 1 (not 0). -/
theorem C1_first_eval_sees_one {M : Type} (lib : Verilated) (dev : Vsat_counter_tb M)
    (argv : List String) (fuel : Nat)
    (h : evalCalls (main lib dev argv fuel).log ≠ []) :
    ((evalCalls (main lib dev argv fuel).log).head?).map Prod.fst = some 1
      ∧ ((evalCalls (main lib dev argv fuel).log).head?).map Prod.fst ≠ some 0 := by
  obtain ⟨j, hj⟩ := main_stamps lib dev argv fuel
  have h1 : ((evalCalls (main lib dev argv fuel).log).head?).map Prod.fst = some 1 := by
    rw [← List.head?_map, hj]
    cases j with
    | zero =>
        simp at hj
        exact absurd hj h
    | succ j =>
        rw [List.range_succ_eq_map]
        simp [UINT64_SIZE]
  exact ⟨h1, by rw [h1]; simp⟩

theorem C1_first_eval_sees_one_witness :
    evalCalls (main plainArgs (finishOn 5) [] 9).log ≠ []
      ∧ ((evalCalls (main plainArgs (finishOn 5) [] 9).log).head?).map Prod.fst = some 1
      ∧ ((evalCalls (main plainArgs (finishOn 5) [] 9).log).head?).map Prod.fst ≠ some 0 :=
  ⟨by decide, C1_first_eval_sees_one plainArgs (finishOn 5) [] 9 (by decide)⟩

/-- C2: for every model, in every run in which `main` returns, `final` is called
exactly once, with the finished flag true; every `eval` call is before it and the
only call after it is the deletion of the model. -/
theorem C2_final_once_after_evals {M : Type} (lib : Verilated) (dev : Vsat_counter_tb M)
    (argv : List String) (fuel : Nat) (code : Int)
    (h : (main lib dev argv fuel).outcome = Outcome.returned code) :
    ∃ pre t ct,
      (main lib dev argv fuel).log = pre ++ [Call.final t ct true, Call.delete]
      ∧ finalCalls pre = []
      ∧ finalCalls (main lib dev argv fuel).log = [(t, ct, true)]
      ∧ evalCalls (main lib dev argv fuel).log = evalCalls pre := by
  obtain ⟨k, sk, _, hh, hc⟩ := main_cases lib dev argv fuel
  obtain ⟨_, _, i3, _, _, _⟩ := loopHead_inv dev k _ sk hh
  rw [startup_log] at i3
  simp only [finalCalls] at i3
  rcases hc with ⟨_, hm⟩ | ⟨_, _, hm⟩ | ⟨_, _, e, hm⟩
  · refine ⟨sk.log ++ [Call.gotFinish true], sk.main_time, sk.m_contextp.m_time, ?_, ?_, ?_, ?_⟩
    · rw [hm]; simp
    · rw [finalCalls_append, i3]; simp [finalCalls]
    · rw [hm]
      simp only [finalCalls_append, i3]
      simp [finalCalls]
    · rw [hm]
      simp only [evalCalls_append]
      simp [evalCalls]
  · rw [hm] at h; cases h
  · rw [hm] at h; cases h

theorem C2_final_once_after_evals_witness :
    (main plainArgs (finishOn 5) [] 9).outcome = Outcome.returned 0
      ∧ ∃ pre t ct,
        (main plainArgs (finishOn 5) [] 9).log = pre ++ [Call.final t ct true, Call.delete]
        ∧ finalCalls pre = []
        ∧ finalCalls (main plainArgs (finishOn 5) [] 9).log = [(t, ct, true)]
        ∧ evalCalls (main plainArgs (finishOn 5) [] 9).log = evalCalls pre :=
  ⟨by decide, C2_final_once_after_evals plainArgs (finishOn 5) [] 9 0 (by decide)⟩

/-- C9: if the finished flag is already true when the loop is reached, `main` makes
no `eval` call and no `timeInc` call, `main_time` stays 0, `final` is called exactly
once and `main` returns 0. -/
theorem C9_flag_set_before_loop {M : Type} (lib : Verilated) (dev : Vsat_counter_tb M)
    (argv : List String) (fuel : Nat)
    (h : (startup lib dev argv).m_contextp.gotFinish = true) :
    (main lib dev argv fuel).outcome = Outcome.returned 0
      ∧ (main lib dev argv fuel).main_time = 0
      ∧ evalCalls (main lib dev argv fuel).log = []
      ∧ timeIncCalls (main lib dev argv fuel).log = []
      ∧ checks (main lib dev argv fuel).log = [true]
      ∧ finalCalls (main lib dev argv fuel).log
          = [(0, (startup lib dev argv).m_contextp.m_time, true)]
      ∧ (main lib dev argv fuel).log
          = (startup lib dev argv).log
            ++ [Call.gotFinish true,
                Call.final 0 (startup lib dev argv).m_contextp.m_time true, Call.delete] := by
  have hw := whileLoop_finish dev 0 (startup lib dev argv) (startup lib dev argv) fuel rfl h
    (Nat.zero_le _)
  have hm : main lib dev argv fuel
      = { outcome := Outcome.returned 0
          main_time := 0
          m_contextp := (dev.final 0 (startup lib dev argv).top_tb
                          (startup lib dev argv).m_contextp).2
          log := (startup lib dev argv).log
                  ++ [Call.gotFinish true,
                      Call.final 0 (startup lib dev argv).m_contextp.m_time true,
                      Call.delete] } := by
    simp [main, hw, sc_time_stamp, h, startup_main_time]
  rw [hm]
  simp [startup_log, evalCalls, timeIncCalls, checks, finalCalls]

theorem C9_flag_set_before_loop_witness :
    (startup plainArgs finishedAtCreate []).m_contextp.gotFinish = true
      ∧ (main plainArgs finishedAtCreate [] 4).outcome = Outcome.returned 0
      ∧ (main plainArgs finishedAtCreate [] 4).main_time = 0
      ∧ evalCalls (main plainArgs finishedAtCreate [] 4).log = []
      ∧ timeIncCalls (main plainArgs finishedAtCreate [] 4).log = []
      ∧ checks (main plainArgs finishedAtCreate [] 4).log = [true]
      ∧ finalCalls (main plainArgs finishedAtCreate [] 4).log
          = [(0, (startup plainArgs finishedAtCreate []).m_contextp.m_time, true)]
      ∧ (main plainArgs finishedAtCreate [] 4).log
          = (startup plainArgs finishedAtCreate []).log
            ++ [Call.gotFinish true,
                Call.final 0 (startup plainArgs finishedAtCreate []).m_contextp.m_time true,
                Call.delete] :=
  ⟨by decide, C9_flag_set_before_loop plainArgs finishedAtCreate [] 4 (by decide)⟩

/-- C6: the start-up of `main` constructs the model right after the context and
before `randReset(2)` and `traceEverOn(true)`: the constructor is applied to the
context as created, and a model that keeps what it read at construction holds the
unconfigured policy and trace flag although the context ends up with 2 and true. -/
theorem C6_model_constructed_before_configuration :
    (∀ (M : Type) (lib : Verilated) (dev : Vsat_counter_tb M) (argv : List String),
        (startup lib dev argv).log
          = [Call.newContext, Call.newModel, Call.debug 0, Call.randReset 2,
             Call.traceEverOn true, Call.commandArgs argv, Call.ctxTraceEverOn true]
        ∧ (startup lib dev argv).top_tb = (dev.create VerilatedContext.create).1)
    ∧ (startup plainArgs snapshot []).top_tb
        = (VerilatedContext.create.m_randReset, VerilatedContext.create.m_traceEverOn)
    ∧ (startup plainArgs snapshot []).top_tb ≠ (2, true)
    ∧ (startup plainArgs snapshot []).m_contextp.m_randReset = 2
    ∧ (startup plainArgs snapshot []).m_contextp.m_traceEverOn = true := by
  refine ⟨fun M lib dev argv => ⟨rfl, rfl⟩, rfl, by decide, rfl, rfl⟩

theorem flagAt_some {M : Type} (dev : Vsat_counter_tb M) (k : Nat) (s : DriverState M) (b : Bool)
    (h : flagAt dev k s = some b) :
    ∃ sk, loopHead dev k s = some sk ∧ sk.m_contextp.gotFinish = b := by
  unfold flagAt at h
  cases hl : loopHead dev k s with
  | none => rw [hl] at h; cases h
  | some sk =>
      rw [hl] at h
      exact ⟨sk, rfl, by simpa using h⟩

/-- A run that reaches the loop head after `n` iterations found the flag false at
every earlier loop head. -/
theorem flagAt_earlier {M : Type} (dev : Vsat_counter_tb M) (n : Nat) (s : DriverState M)
    (b : Bool) (h : flagAt dev n s = some b) : ∀ k < n, flagAt dev k s = some false := by
  induction n generalizing s with
  | zero => intro k hk; omega
  | succ n ih =>
      obtain ⟨sn, hl, hb⟩ := flagAt_some dev (n + 1) s b h
      obtain ⟨h0, s1, hb1, hk1⟩ := loopHead_succ dev n s sn hl
      intro k hk
      cases k with
      | zero => simp [flagAt, loopHead, h0]
      | succ k =>
          have h1 : flagAt dev n s1 = some b := by simp [flagAt, hk1, hb]
          have := ih s1 h1 k (by omega)
          simpa [flagAt, loopHead_step dev k s s1 h0 hb1] using this

theorem main_of_finish {M : Type} (lib : Verilated) (dev : Vsat_counter_tb M)
    (argv : List String) (n fuel : Nat) (sn : DriverState M)
    (h : loopHead dev n (startup lib dev argv) = some sn)
    (hf : sn.m_contextp.gotFinish = true) (hn : n ≤ fuel) :
    main lib dev argv fuel
      = { outcome := Outcome.returned 0
          main_time := sn.main_time
          m_contextp := (dev.final sn.main_time sn.top_tb sn.m_contextp).2
          log := sn.log ++ [Call.gotFinish true,
                            Call.final sn.main_time sn.m_contextp.m_time true,
                            Call.delete] } := by
  have hw := whileLoop_finish dev n _ sn fuel h hf hn
  simp [main, hw, sc_time_stamp, hf]

theorem main_of_running {M : Type} (lib : Verilated) (dev : Vsat_counter_tb M)
    (argv : List String) (k : Nat) (sk : DriverState M)
    (h : loopHead dev k (startup lib dev argv) = some sk)
    (hf : sk.m_contextp.gotFinish = false) :
    main lib dev argv k
      = { outcome := Outcome.running
          main_time := sk.main_time
          m_contextp := sk.m_contextp
          log := sk.log } := by
  have hw := whileLoop_running dev k _ sk h hf
  simp [main, hw]

theorem main_of_fault {M : Type} (lib : Verilated) (dev : Vsat_counter_tb M)
    (argv : List String) (k fuel : Nat) (sk sf : DriverState M) (e : String)
    (h : loopHead dev k (startup lib dev argv) = some sk)
    (hf : sk.m_contextp.gotFinish = false) (hb : loopBody dev sk = Except.error (e, sf))
    (hk : k < fuel) :
    main lib dev argv fuel
      = { outcome := Outcome.fault e
          main_time := (sk.main_time + 1) % UINT64_SIZE
          m_contextp := sk.m_contextp
          log := sk.log ++ [Call.gotFinish false,
                            Call.eval ((sk.main_time + 1) % UINT64_SIZE) sk.m_contextp.m_time] } := by
  have hw := whileLoop_fault dev k _ sk sf e fuel h hf hb hk
  obtain ⟨_, hsf⟩ := loopBody_error dev sk sf e hb
  subst hsf
  simp [main, hw]

/-- The loop-head state of a run of `main` that starts with `main_time = 0`. -/
theorem loopHead_startup {M : Type} (lib : Verilated) (dev : Vsat_counter_tb M)
    (argv : List String) (k : Nat) (sk : DriverState M)
    (h : loopHead dev k (startup lib dev argv) = some sk) :
    sk.main_time = k % UINT64_SIZE
    ∧ checks sk.log = List.replicate k false
    ∧ timeIncCalls sk.log = List.replicate k 1
    ∧ finalCalls sk.log = []
    ∧ (evalCalls sk.log).map Prod.fst = (List.range k).map (fun i => (i + 1) % UINT64_SIZE)
    ∧ incsBeforeEval 0 sk.log = List.range k := by
  obtain ⟨i1, i2, i3, i4, i5, i6⟩ := loopHead_inv dev k _ sk h
  rw [startup_log] at i1 i2 i3 i4 i5
  rw [startup_main_time] at i4 i6
  refine ⟨?_, ?_, ?_, ?_, ?_, ?_⟩
  · have := i6 (by unfold UINT64_SIZE; omega)
    simpa using this
  · simpa [checks] using i1
  · simpa [timeIncCalls] using i2
  · simpa [finalCalls] using i3
  · simpa [evalCalls] using i4
  · have := i5 0
    simpa [incsBeforeEval, timeIncCalls] using this

theorem range_map_succ_mod (k : Nat) (hk : k < UINT64_SIZE) :
    (List.range k).map (fun i => (i + 1) % UINT64_SIZE) = (List.range k).map (fun i => i + 1) := by
  apply List.map_congr_left
  intro i hi
  rw [List.mem_range] at hi
  exact Nat.mod_eq_of_lt (by omega)

/-- C3: if the run reaches the loop head after `n` iterations (`n < 2^64`) and finds
the finished flag true there - so the flag was false at every earlier loop head -
then `main` performs exactly `n` iterations (`n` `eval` calls with time stamps
`1..n`, `n` `timeInc(1)` calls, `n` false checks followed by one true check),
`final` is called once with `main_time = n`, and `main` returns 0. -/
theorem C3_finish_on_nth_eval {M : Type} (lib : Verilated) (dev : Vsat_counter_tb M)
    (argv : List String) (n fuel : Nat) (hn : n < UINT64_SIZE)
    (htrue : flagAt dev n (startup lib dev argv) = some true) (hfuel : n ≤ fuel) :
    (∀ k < n, flagAt dev k (startup lib dev argv) = some false)
    ∧ (main lib dev argv fuel).outcome = Outcome.returned 0
    ∧ (main lib dev argv fuel).main_time = n
    ∧ checks (main lib dev argv fuel).log = List.replicate n false ++ [true]
    ∧ (evalCalls (main lib dev argv fuel).log).map Prod.fst
        = (List.range n).map (fun i => i + 1)
    ∧ (evalCalls (main lib dev argv fuel).log).length = n
    ∧ timeIncCalls (main lib dev argv fuel).log = List.replicate n 1
    ∧ (finalCalls (main lib dev argv fuel).log).map (fun q => (q.1, q.2.2)) = [(n, true)] := by
  obtain ⟨sn, hl, hf⟩ := flagAt_some dev n _ true htrue
  obtain ⟨j1, j2, j3, j4, j5, _⟩ := loopHead_startup lib dev argv n sn hl
  have hmt : sn.main_time = n := by rw [j1]; exact Nat.mod_eq_of_lt hn
  rw [range_map_succ_mod n hn] at j5
  have hlen : (evalCalls sn.log).length = n := by
    have := congrArg List.length j5
    simpa using this
  rw [main_of_finish lib dev argv n fuel sn hl hf hfuel]
  refine ⟨flagAt_earlier dev n _ true htrue, rfl, hmt, ?_, ?_, ?_, ?_, ?_⟩
  · simp [checks_append, j2, checks]
  · simp only [evalCalls_append, List.map_append, j5]
    simp [evalCalls]
  · simp [evalCalls_append, evalCalls, hlen]
  · simp [timeIncCalls_append, j3, timeIncCalls]
  · simp [finalCalls_append, j4, finalCalls, hmt]

theorem C3_finish_on_nth_eval_witness :
    5 < UINT64_SIZE ∧ flagAt (finishOn 5) 5 (startup plainArgs (finishOn 5) []) = some true
    ∧ 5 ≤ 9
    ∧ (∀ k < 5, flagAt (finishOn 5) k (startup plainArgs (finishOn 5) []) = some false)
    ∧ (main plainArgs (finishOn 5) [] 9).outcome = Outcome.returned 0
    ∧ (main plainArgs (finishOn 5) [] 9).main_time = 5
    ∧ checks (main plainArgs (finishOn 5) [] 9).log = List.replicate 5 false ++ [true]
    ∧ (evalCalls (main plainArgs (finishOn 5) [] 9).log).map Prod.fst
        = (List.range 5).map (fun i => i + 1)
    ∧ (evalCalls (main plainArgs (finishOn 5) [] 9).log).length = 5
    ∧ timeIncCalls (main plainArgs (finishOn 5) [] 9).log = List.replicate 5 1
    ∧ (finalCalls (main plainArgs (finishOn 5) [] 9).log).map (fun q => (q.1, q.2.2))
        = [(5, true)] :=
  ⟨by decide, by decide, by decide,
    C3_finish_on_nth_eval plainArgs (finishOn 5) [] 5 9 (by decide) (by decide) (by decide)⟩

theorem faultAt_some {M : Type} (dev : Vsat_counter_tb M) (k : Nat) (s : DriverState M)
    (e : String) (h : faultAt dev k s = some e) :
    ∃ j sj sf, k = j + 1 ∧ loopHead dev j s = some sj ∧ sj.m_contextp.gotFinish = false
      ∧ loopBody dev sj = Except.error (e, sf) := by
  cases k with
  | zero => simp [faultAt] at h
  | succ j =>
      simp only [faultAt] at h
      cases hl : loopHead dev j s with
      | none => rw [hl] at h; cases h
      | some sj =>
          rw [hl] at h
          simp only at h
          cases hf : sj.m_contextp.gotFinish with
          | true => simp [hf] at h
          | false =>
              simp only [hf] at h
              cases hb : loopBody dev sj with
              | ok s1 => rw [hb] at h; simp at h
              | error r =>
                  obtain ⟨e1, sf⟩ := r
                  rw [hb] at h
                  simp at h
                  subst h
                  exact ⟨j, sj, sf, rfl, hl, hf, hb⟩

/-- C5: if the run reaches its `k`-th `eval` call (so `k ≥ 1` and the finished flag
was false at each of the `k` loop heads before it) and that call raises a fault,
then `main` stops there: exactly `k` `eval` calls and `k-1` `timeInc` calls are
made, the faulting `eval` is the last call, `final` is never called, and the
outcome is the fault, not exit code 0 - whatever the iteration budget beyond `k`. -/
theorem C5_fault_stops_main {M : Type} (lib : Verilated) (dev : Vsat_counter_tb M)
    (argv : List String) (k fuel : Nat) (e : String)
    (hfault : faultAt dev k (startup lib dev argv) = some e) (hfuel : k ≤ fuel) :
    1 ≤ k
    ∧ (∀ j < k, flagAt dev j (startup lib dev argv) = some false)
    ∧ (main lib dev argv fuel).outcome = Outcome.fault e
    ∧ (main lib dev argv fuel).outcome ≠ Outcome.returned 0
    ∧ (evalCalls (main lib dev argv fuel).log).length = k
    ∧ (timeIncCalls (main lib dev argv fuel).log).length = k - 1
    ∧ finalCalls (main lib dev argv fuel).log = []
    ∧ ∃ pre t c, (main lib dev argv fuel).log = pre ++ [Call.eval t c] := by
  obtain ⟨j, sj, sf, hk, hl, hf, hb⟩ := faultAt_some dev k _ e hfault
  subst hk
  obtain ⟨_, _, j3, j4, j5, _⟩ := loopHead_startup lib dev argv j sj hl
  have hlen : (evalCalls sj.log).length = j := by
    have := congrArg List.length j5
    simpa using this
  have hflag : flagAt dev j (startup lib dev argv) = some false := by simp [flagAt, hl, hf]
  rw [main_of_fault lib dev argv j fuel sj sf e hl hf hb (by omega)]
  refine ⟨by omega, ?_, rfl, by simp, ?_, ?_, ?_, ?_⟩
  · intro i hi
    rcases Nat.lt_succ_iff_lt_or_eq.mp hi with h1 | h1
    · exact flagAt_earlier dev j _ false hflag i h1
    · rw [h1]; exact hflag
  · simp [evalCalls_append, evalCalls, hlen]
  · simp [timeIncCalls_append, timeIncCalls, j3]
  · simp [finalCalls_append, finalCalls, j4]
  · exact ⟨sj.log ++ [Call.gotFinish false], (sj.main_time + 1) % UINT64_SIZE,
      sj.m_contextp.m_time, by simp⟩

theorem C5_fault_stops_main_witness :
    faultAt (faultOn 3) 3 (startup plainArgs (faultOn 3) []) = some "fault" ∧ 3 ≤ 8
    ∧ 1 ≤ 3
    ∧ (∀ j < 3, flagAt (faultOn 3) j (startup plainArgs (faultOn 3) []) = some false)
    ∧ (main plainArgs (faultOn 3) [] 8).outcome = Outcome.fault "fault"
    ∧ (main plainArgs (faultOn 3) [] 8).outcome ≠ Outcome.returned 0
    ∧ (evalCalls (main plainArgs (faultOn 3) [] 8).log).length = 3
    ∧ (timeIncCalls (main plainArgs (faultOn 3) [] 8).log).length = 3 - 1
    ∧ finalCalls (main plainArgs (faultOn 3) [] 8).log = []
    ∧ ∃ pre t c, (main plainArgs (faultOn 3) [] 8).log = pre ++ [Call.eval t c] :=
  ⟨by decide, by decide, C5_fault_stops_main plainArgs (faultOn 3) [] 3 8 "fault" (by decide)
    (by decide)⟩

/-- The model `idle` keeps the run in the loop for ever. -/
theorem idle_loopHead (k : Nat) (s : DriverState Unit) (h : s.m_contextp.gotFinish = false) :
    ∃ sk, loopHead idle k s = some sk ∧ sk.m_contextp.gotFinish = false := by
  induction k generalizing s with
  | zero => exact ⟨s, rfl, h⟩
  | succ k ih =>
      cases hb : loopBody idle s with
      | error r => simp [loopBody, idle] at hb
      | ok s1 =>
          obtain ⟨top, c, hE, hs1⟩ := loopBody_ok idle s s1 hb
          simp only [idle, Except.ok.injEq, Prod.mk.injEq] at hE
          rw [loopHead_step idle k s s1 h hb]
          apply ih
          rw [hs1, ← hE.2]
          exact h

theorem idle_never (k : Nat) :
    flagAt idle k (startup plainArgs idle []) = some false := by
  obtain ⟨sk, hl, hf⟩ := idle_loopHead k (startup plainArgs idle []) rfl
  simp [flagAt, hl, hf]

/-- C8: if the finished flag is false at every loop head (the model never sets it
and `eval` never faults), the loop is never left: for every iteration budget
`fuel` the run is still in the loop, having made `fuel` `eval` calls (so at least
`n` of them for every `n ≤ fuel`), no `final` call, and `main` has not returned. -/
theorem C8_never_finished_never_returns {M : Type} (lib : Verilated) (dev : Vsat_counter_tb M)
    (argv : List String)
    (hnever : ∀ k, flagAt dev k (startup lib dev argv) = some false) (fuel : Nat) :
    (main lib dev argv fuel).outcome = Outcome.running
    ∧ (∀ code, (main lib dev argv fuel).outcome ≠ Outcome.returned code)
    ∧ (evalCalls (main lib dev argv fuel).log).length = fuel
    ∧ (∀ n ≤ fuel, n ≤ (evalCalls (main lib dev argv fuel).log).length)
    ∧ (timeIncCalls (main lib dev argv fuel).log).length = fuel
    ∧ finalCalls (main lib dev argv fuel).log = [] := by
  obtain ⟨sk, hl, hf⟩ := flagAt_some dev fuel _ false (hnever fuel)
  obtain ⟨_, _, j3, j4, j5, _⟩ := loopHead_startup lib dev argv fuel sk hl
  have hlen : (evalCalls sk.log).length = fuel := by
    have := congrArg List.length j5
    simpa using this
  rw [main_of_running lib dev argv fuel sk hl hf]
  refine ⟨rfl, by intro code; simp, hlen, ?_, by simp [j3], j4⟩
  intro n hn
  simp only [hlen]
  exact hn

theorem C8_never_finished_never_returns_witness :
    (∀ k, flagAt idle k (startup plainArgs idle []) = some false)
    ∧ (main plainArgs idle [] 6).outcome = Outcome.running
    ∧ (∀ code, (main plainArgs idle [] 6).outcome ≠ Outcome.returned code)
    ∧ (evalCalls (main plainArgs idle [] 6).log).length = 6
    ∧ (∀ n ≤ 6, n ≤ (evalCalls (main plainArgs idle [] 6).log).length)
    ∧ (timeIncCalls (main plainArgs idle [] 6).log).length = 6
    ∧ finalCalls (main plainArgs idle [] 6).log = [] :=
  ⟨idle_never, C8_never_finished_never_returns plainArgs idle [] idle_never 6⟩

theorem ctx_step_mod (a i : Nat) :
    ((a + 1) % UINT64_SIZE + i) % UINT64_SIZE = (a + (i + 1)) % UINT64_SIZE := by
  unfold UINT64_SIZE
  omega

/-- When `eval` leaves the context's counter alone, the counter and what each
`eval` call sees of it are determined by the number of iterations. -/
theorem loopHead_ctx {M : Type} (dev : Vsat_counter_tb M)
    (hT : ∀ t m c m' c', dev.eval t m c = Except.ok (m', c') → c'.m_time = c.m_time)
    (k : Nat) (s sk : DriverState M) (h : loopHead dev k s = some sk)
    (hlt : s.m_contextp.m_time < UINT64_SIZE) :
    sk.m_contextp.m_time = (s.m_contextp.m_time + k) % UINT64_SIZE
    ∧ evalCalls sk.log
        = evalCalls s.log
          ++ (List.range k).map (fun i => ((s.main_time + i + 1) % UINT64_SIZE,
                                           (s.m_contextp.m_time + i) % UINT64_SIZE)) := by
  induction k generalizing s with
  | zero =>
      simp only [loopHead, Option.some.injEq] at h
      subst h
      simp
      exact (Nat.mod_eq_of_lt hlt).symm
  | succ k ih =>
      obtain ⟨_, s1, hb, hk⟩ := loopHead_succ dev k s sk h
      obtain ⟨top, c, hE, hs1⟩ := loopBody_ok dev s s1 hb
      have hc := hT _ _ _ _ _ hE
      have hlt1 : s1.m_contextp.m_time < UINT64_SIZE := by
        rw [hs1]; exact mod_lt_size _
      obtain ⟨i1, i2⟩ := ih s1 hk hlt1
      subst hs1
      simp only [VerilatedContext.timeInc, hc] at i1 i2
      refine ⟨?_, ?_⟩
      · rw [i1, ctx_step_mod]
      · rw [i2, evalCalls_append, List.range_succ_eq_map]
        simp [evalCalls, step_mod, ctx_step_mod, Function.comp_def, Nat.mod_eq_of_lt hlt]
        intro a _
        rw [Nat.add_assoc, Nat.add_comm 1 a]

/-- C10: at the loop head reached after `k < 2^64` completed iterations `main_time`
equals `k` and `timeInc(1)` has been called exactly `k` times; the `j`-th `eval`
call saw the time stamp `j` after only `j-1` `timeInc` calls.  If moreover `eval`
does not change the context's counter and the counter is 0 at loop entry, the
counter equals `k`, agrees with `main_time`, and the `j`-th `eval` call saw the
pair (`j`, `j-1`). -/
theorem C10_loop_invariant {M : Type} (lib : Verilated) (dev : Vsat_counter_tb M)
    (argv : List String) (k : Nat) (sk : DriverState M) (hk : k < UINT64_SIZE)
    (h : loopHead dev k (startup lib dev argv) = some sk) :
    sk.main_time = k
    ∧ timeIncCalls sk.log = List.replicate k 1
    ∧ (evalCalls sk.log).map Prod.fst = (List.range k).map (fun i => i + 1)
    ∧ incsBeforeEval 0 sk.log = List.range k
    ∧ ((∀ t m c m' c', dev.eval t m c = Except.ok (m', c') → c'.m_time = c.m_time) →
        (startup lib dev argv).m_contextp.m_time = 0 →
          sk.m_contextp.m_time = k
          ∧ sk.main_time = sk.m_contextp.m_time
          ∧ evalCalls sk.log = (List.range k).map (fun i => (i + 1, i))) := by
  obtain ⟨j1, _, j3, _, j5, j6⟩ := loopHead_startup lib dev argv k sk h
  have hmt : sk.main_time = k := by rw [j1]; exact Nat.mod_eq_of_lt hk
  rw [range_map_succ_mod k hk] at j5
  refine ⟨hmt, j3, j5, j6, ?_⟩
  intro hT h0
  obtain ⟨c1, c2⟩ := loopHead_ctx dev hT k _ sk h (by rw [h0]; unfold UINT64_SIZE; omega)
  rw [h0] at c1 c2
  rw [startup_log, startup_main_time] at c2
  have hct : sk.m_contextp.m_time = k := by
    rw [c1]; simpa using Nat.mod_eq_of_lt hk
  refine ⟨hct, by rw [hmt, hct], ?_⟩
  rw [c2]
  simp only [evalCalls, List.nil_append, Nat.zero_add]
  apply List.map_congr_left
  intro i hi
  rw [List.mem_range] at hi
  rw [Nat.mod_eq_of_lt (show i + 1 < UINT64_SIZE by omega),
    Nat.mod_eq_of_lt (show i < UINT64_SIZE by omega)]

theorem C10_loop_invariant_witness :
    2 < UINT64_SIZE ∧
    ∃ sk, loopHead (finishOn 5) 2 (startup plainArgs (finishOn 5) []) = some sk
      ∧ sk.main_time = 2
      ∧ timeIncCalls sk.log = List.replicate 2 1
      ∧ (evalCalls sk.log).map Prod.fst = (List.range 2).map (fun i => i + 1)
      ∧ incsBeforeEval 0 sk.log = List.range 2
      ∧ ((∀ t m c m' c', (finishOn 5).eval t m c = Except.ok (m', c') → c'.m_time = c.m_time) →
          (startup plainArgs (finishOn 5) []).m_contextp.m_time = 0 →
            sk.m_contextp.m_time = 2
            ∧ sk.main_time = sk.m_contextp.m_time
            ∧ evalCalls sk.log = (List.range 2).map (fun i => (i + 1, i))) :=
  ⟨by decide, _, rfl,
    C10_loop_invariant plainArgs (finishOn 5) [] 2 _ (by decide) rfl⟩

theorem succ_mod_mod (i : Nat) : (i + 1) % UINT64_SIZE = (i % UINT64_SIZE + 1) % UINT64_SIZE := by
  unfold UINT64_SIZE
  omega

/-- With the context's counter 0 at loop entry and untouched by `eval`: the state at
every loop head, and what the `eval` calls before it saw. -/
theorem loopHead_agree {M : Type} (lib : Verilated) (dev : Vsat_counter_tb M)
    (argv : List String)
    (hT : ∀ t m c m' c', dev.eval t m c = Except.ok (m', c') → c'.m_time = c.m_time)
    (h0 : (startup lib dev argv).m_contextp.m_time = 0)
    (k : Nat) (sk : DriverState M) (h : loopHead dev k (startup lib dev argv) = some sk) :
    sk.main_time = sk.m_contextp.m_time
    ∧ ∀ p ∈ evalCalls sk.log, p.1 = (p.2 + 1) % UINT64_SIZE := by
  obtain ⟨j1, _, _, _, _, _⟩ := loopHead_startup lib dev argv k sk h
  obtain ⟨c1, c2⟩ := loopHead_ctx dev hT k _ sk h (by rw [h0]; unfold UINT64_SIZE; omega)
  rw [h0] at c1 c2
  rw [startup_log, startup_main_time] at c2
  simp only [evalCalls, List.nil_append, Nat.zero_add] at c1 c2
  refine ⟨by rw [j1, c1], ?_⟩
  intro p hp
  rw [c2, List.mem_map] at hp
  obtain ⟨i, _, hi⟩ := hp
  rw [← hi]
  exact succ_mod_mod i

/-- C4 (amended): `sc_time_stamp` returns the driver's own `main_time`.  If the
context's counter is 0 at loop entry and `eval` does not change it, then at every
loop head and at the `final` call the stamp equals the context's counter, while
inside every `eval` call it is one ahead of it (modulo 2^64). -/
theorem C4_stamp_one_ahead_inside_eval {M : Type} (lib : Verilated) (dev : Vsat_counter_tb M)
    (argv : List String) (fuel : Nat)
    (hT : ∀ t m c m' c', dev.eval t m c = Except.ok (m', c') → c'.m_time = c.m_time)
    (h0 : (startup lib dev argv).m_contextp.m_time = 0) :
    (∀ k sk, loopHead dev k (startup lib dev argv) = some sk →
        sc_time_stamp sk.main_time = sk.m_contextp.m_time)
    ∧ (∀ p ∈ evalCalls (main lib dev argv fuel).log, p.1 = (p.2 + 1) % UINT64_SIZE)
    ∧ (∀ q ∈ finalCalls (main lib dev argv fuel).log, q.1 = q.2.1) := by
  refine ⟨fun k sk h => (loopHead_agree lib dev argv hT h0 k sk h).1, ?_, ?_⟩
  · obtain ⟨k, sk, _, hh, hc⟩ := main_cases lib dev argv fuel
    obtain ⟨a1, a2⟩ := loopHead_agree lib dev argv hT h0 k sk hh
    rcases hc with ⟨_, hm⟩ | ⟨_, _, hm⟩ | ⟨_, _, e, hm⟩
    · rw [hm]
      intro p hp
      simp only [evalCalls_append, evalCalls, List.append_nil] at hp
      exact a2 p hp
    · rw [hm]
      exact a2
    · rw [hm]
      intro p hp
      simp only [evalCalls_append, evalCalls, List.mem_append, List.mem_singleton] at hp
      rcases hp with hp | hp
      · exact a2 p hp
      · rw [hp, a1]
  · obtain ⟨k, sk, _, hh, hc⟩ := main_cases lib dev argv fuel
    obtain ⟨a1, _⟩ := loopHead_agree lib dev argv hT h0 k sk hh
    obtain ⟨_, _, _, j4, _, _⟩ := loopHead_startup lib dev argv k sk hh
    rcases hc with ⟨_, hm⟩ | ⟨_, _, hm⟩ | ⟨_, _, e, hm⟩
    · rw [hm]
      intro q hq
      simp only [finalCalls_append, j4, finalCalls, List.nil_append, List.mem_singleton] at hq
      rw [hq]
      exact a1
    · rw [hm]
      intro q hq
      simp [j4] at hq
    · rw [hm]
      intro q hq
      simp [finalCalls_append, j4, finalCalls] at hq

theorem C4_stamp_one_ahead_inside_eval_witness :
    (∀ t m c m' c', (finishOn 5).eval t m c = Except.ok (m', c') → c'.m_time = c.m_time)
    ∧ (startup plainArgs (finishOn 5) []).m_contextp.m_time = 0
    ∧ (∀ k sk, loopHead (finishOn 5) k (startup plainArgs (finishOn 5) []) = some sk →
        sc_time_stamp sk.main_time = sk.m_contextp.m_time)
    ∧ (∀ p ∈ evalCalls (main plainArgs (finishOn 5) [] 9).log, p.1 = (p.2 + 1) % UINT64_SIZE)
    ∧ (∀ q ∈ finalCalls (main plainArgs (finishOn 5) [] 9).log, q.1 = q.2.1) :=
  have hT : ∀ t m c m' c', (finishOn 5).eval t m c = Except.ok (m', c') → c'.m_time = c.m_time := by
    intro t m c m' c' h
    simp only [finishOn, Except.ok.injEq, Prod.mk.injEq] at h
    rw [← h.2]
    split <;> rfl
  ⟨hT, rfl, C4_stamp_one_ahead_inside_eval plainArgs (finishOn 5) [] 9 hT rfl⟩

/-- C4 as stated fails: with the context's counter 0 at loop entry and a model whose
`eval` does not touch it, the first `eval` call sees the stamp 1 while the context's
counter is still 0. -/
theorem C4_counterexample :
    (startup plainArgs idle []).m_contextp.m_time = 0
    ∧ (∀ t m c m' c', idle.eval t m c = Except.ok (m', c') → c'.m_time = c.m_time)
    ∧ evalCalls (main plainArgs idle [] 1).log = [(1, 0)]
    ∧ ¬ (∀ p ∈ evalCalls (main plainArgs idle [] 1).log, p.1 = p.2) := by
  refine ⟨rfl, ?_, by decide, by decide⟩
  intro t m c m' c' h
  simp only [idle, Except.ok.injEq, Prod.mk.injEq] at h
  rw [h.2]

/-- C7 (amended): `main_time` starts at 0 and after `k` completed iterations it is
`k mod 2^64`, with `timeInc(1)` called exactly once per iteration.  One more
iteration replaces `main_time` by `(main_time + 1) mod 2^64`: an increase by exactly
1 unless `main_time` is `2^64 - 1`, in which case it wraps to 0; the context's
counter becomes the one `eval` left, plus 1, modulo 2^64. -/
theorem C7_counter_steps_by_one_mod {M : Type} (lib : Verilated) (dev : Vsat_counter_tb M)
    (argv : List String) (k : Nat) (sk : DriverState M)
    (h : loopHead dev k (startup lib dev argv) = some sk) :
    (startup lib dev argv).main_time = 0
    ∧ sk.main_time = k % UINT64_SIZE
    ∧ (k < UINT64_SIZE → sk.main_time = k)
    ∧ timeIncCalls sk.log = List.replicate k 1
    ∧ ∀ s', loopBody dev sk = Except.ok s' →
        s'.main_time = (sk.main_time + 1) % UINT64_SIZE
        ∧ (sk.main_time + 1 < UINT64_SIZE →
            s'.main_time = sk.main_time + 1 ∧ sk.main_time < s'.main_time)
        ∧ (sk.main_time + 1 = UINT64_SIZE → s'.main_time = 0)
        ∧ timeIncCalls s'.log = timeIncCalls sk.log ++ [1]
        ∧ ∃ top c, dev.eval (sc_time_stamp s'.main_time) sk.top_tb sk.m_contextp
                    = Except.ok (top, c)
            ∧ s'.m_contextp.m_time = (c.m_time + 1) % UINT64_SIZE := by
  obtain ⟨j1, _, j3, _, _, _⟩ := loopHead_startup lib dev argv k sk h
  refine ⟨rfl, j1, fun hk => by rw [j1]; exact Nat.mod_eq_of_lt hk, j3, ?_⟩
  intro s' hb
  obtain ⟨top, c, hE, hs'⟩ := loopBody_ok dev sk s' hb
  subst hs'
  refine ⟨rfl, ?_, ?_, ?_, top, c, hE, rfl⟩
  · intro hlt
    simp only
    rw [Nat.mod_eq_of_lt hlt]
    exact ⟨rfl, Nat.lt_succ_self _⟩
  · intro heq
    simp only
    rw [heq]
    exact Nat.mod_self _
  · simp [timeIncCalls_append, timeIncCalls]

theorem C7_counter_steps_by_one_mod_witness :
    ∃ sk, loopHead (finishOn 5) 2 (startup plainArgs (finishOn 5) []) = some sk
    ∧ (startup plainArgs (finishOn 5) []).main_time = 0
    ∧ sk.main_time = 2 % UINT64_SIZE
    ∧ (2 < UINT64_SIZE → sk.main_time = 2)
    ∧ timeIncCalls sk.log = List.replicate 2 1
    ∧ ∀ s', loopBody (finishOn 5) sk = Except.ok s' →
        s'.main_time = (sk.main_time + 1) % UINT64_SIZE
        ∧ (sk.main_time + 1 < UINT64_SIZE →
            s'.main_time = sk.main_time + 1 ∧ sk.main_time < s'.main_time)
        ∧ (sk.main_time + 1 = UINT64_SIZE → s'.main_time = 0)
        ∧ timeIncCalls s'.log = timeIncCalls sk.log ++ [1]
        ∧ ∃ top c, (finishOn 5).eval (sc_time_stamp s'.main_time) sk.top_tb sk.m_contextp
                    = Except.ok (top, c)
            ∧ s'.m_contextp.m_time = (c.m_time + 1) % UINT64_SIZE :=
  ⟨_, rfl, C7_counter_steps_by_one_mod plainArgs (finishOn 5) [] 2 _ rfl⟩

/-- C7 as stated fails: with a model that never finishes, the run reaches the loop
head after `2^64 - 1` iterations with `main_time = 2^64 - 1` and the flag false, and
the next iteration leaves `main_time = 0`, which is smaller. -/
theorem C7_counterexample :
    ∃ s s', loopHead idle (2 ^ 64 - 1) (startup plainArgs idle []) = some s
      ∧ s.m_contextp.gotFinish = false
      ∧ loopBody idle s = Except.ok s'
      ∧ s.main_time = 2 ^ 64 - 1
      ∧ s'.main_time = 0
      ∧ s'.main_time < s.main_time := by
  obtain ⟨s, hl, hf⟩ := idle_loopHead (2 ^ 64 - 1) (startup plainArgs idle []) rfl
  obtain ⟨j1, _, _, _, _, _⟩ := loopHead_startup plainArgs idle [] (2 ^ 64 - 1) s hl
  have hs : s.main_time = 2 ^ 64 - 1 := by
    rw [j1]; unfold UINT64_SIZE; norm_num
  have hb : loopBody idle s
      = Except.ok { main_time := (s.main_time + 1) % UINT64_SIZE
                    m_contextp := VerilatedContext.timeInc 1 s.m_contextp
                    top_tb := ()
                    log := s.log ++ [Call.gotFinish false,
                            Call.eval ((s.main_time + 1) % UINT64_SIZE) s.m_contextp.m_time]
                           ++ [Call.timeInc 1] } := rfl
  refine ⟨s, _, hl, hf, hb, hs, ?_, ?_⟩
  · simp only [hs]; unfold UINT64_SIZE; norm_num
  · simp only [hs]; unfold UINT64_SIZE; norm_num

end SimMain
